import Mathlib

/-!
Verification of the rtags indexing core (src/Project.h, src/IndexerJob.cpp,
src/ListSymbolsJob.cpp) against its natural-language specification.

The C++ sources are shallowly embedded: file identifiers are `Nat`, paths and
argument strings are `String`, the project's hash maps are association lists,
`std::set` visited sets are `Finset Nat`, and the recursive include-graph
traversal of `IndexerJob::priority` is a fuel-indexed function whose adequacy
(the depth bound `allIds.card + 1` always yields a result) expresses the
termination of the C++ recursion.
-/

/-! ### Association lists (model of `Hash<K, V>` from rct) -/

/-- Lookup in an association list keyed by `Nat` (model of `Hash::value` /
`operator[]` reads). -/
def alookup {β : Type} : List (Nat × β) → Nat → Option β
  | [], _ => none
  | (k, v) :: rest, n => if k = n then some v else alookup rest n

/-- Insert-or-replace in an association list (model of `Hash::operator[] =`). -/
def ainsert {β : Type} : List (Nat × β) → Nat → β → List (Nat × β)
  | [], n, b => [(n, b)]
  | (k, v) :: rest, n, b => if k = n then (k, b) :: rest else (k, v) :: ainsert rest n b

/-- Remove a key from an association list (model of `Hash::remove`). -/
def aremove {β : Type} : List (Nat × β) → Nat → List (Nat × β)
  | [], _ => []
  | (k, v) :: rest, n => if k = n then aremove rest n else (k, v) :: aremove rest n

/-! ### Project file-visitation bookkeeping (Project.h lines 193-220)

`mVisitedFiles : Hash<uint32_t, Path>` becomes an association list of
`Nat × String`; a job's `visited : Set<uint32_t>` becomes a `List Nat`
(inserted without duplicates).  `Path().isEmpty()` is `= ""`: the C++
`mVisitedFiles[visitFileId]` default-constructs an empty `Path`, so an absent
entry and an entry holding the empty path behave identically. -/

/-- Shared mutable state of a `Project` as seen by `visitFile` /
`releaseFileIds`: the visited-files map and the active-jobs registry
(`mActiveJobs` reduced to each job's `visited` set, keyed by source key). -/
structure PState where
  visitedFiles : List (Nat × String)
  jobs : List (Nat × List Nat)
  deriving DecidableEq, Repr

/-- Insert a file id into the `visited` set of the job stored under `key`
(model of `mActiveJobs[key]->visited.insert(visitFileId)`). -/
def addToJob : List (Nat × List Nat) → Nat → Nat → List (Nat × List Nat)
  | [], _, _ => []
  | (k, v) :: rest, key, f =>
    if k = key then (k, if f ∈ v then v else f :: v) :: rest
    else (k, v) :: addToJob rest key f

/-- Embedding of `Project::visitFile` (Project.h lines 193-209).  Returns
`none` when the code would fail its own assertion (`key != 0` but
`mActiveJobs` does not contain `key`); otherwise `some (claimed, newState)`.
The emptiness test on the stored path reproduces
`Path &p = mVisitedFiles[visitFileId]; if (p.isEmpty())`. -/
def Project.visitFile (st : PState) (fileId : Nat) (path : String) (key : Nat) :
    Option (Bool × PState) :=
  if (alookup st.visitedFiles fileId).getD "" = "" then
    if key ≠ 0 then
      match alookup st.jobs key with
      | none => none
      | some _ =>
        some (true, ⟨ainsert st.visitedFiles fileId path, addToJob st.jobs key fileId⟩)
    else
      some (true, ⟨ainsert st.visitedFiles fileId path, st.jobs⟩)
  else
    some (false, st)

/-- Embedding of `Project::releaseFileIds` (Project.h lines 211-220): every
listed file id is removed from the visited map; jobs' `visited` sets are not
touched. -/
def Project.releaseFileIds (st : PState) (fileIds : List Nat) : PState :=
  ⟨fileIds.foldl (fun acc f => aremove acc f) st.visitedFiles, st.jobs⟩

/-- One step of the visitation state machine: either a `visitFile` call or a
`releaseFileIds` call. -/
inductive POp where
  | visit (fileId : Nat) (path : String) (key : Nat)
  | release (fileIds : List Nat)
  deriving DecidableEq, Repr

/-- Run one operation.  A `visitFile` call that would fail its assertion
leaves the state unchanged (the process would abort there; no state after the
call is observable). -/
def runOp (st : PState) : POp → PState
  | .visit f p k =>
    match Project.visitFile st f p k with
    | some (_, st') => st'
    | none => st
  | .release fs => Project.releaseFileIds st fs

/-- Run a sequence of operations from a state. -/
def runOps (st : PState) (ops : List POp) : PState := ops.foldl runOp st

/-- Initial state for a fixed set of active jobs: empty visited map, every
job's `visited` set empty. -/
def initState (keys : List Nat) : PState :=
  ⟨[], keys.map (fun k => (k, []))⟩

/-- A file identifier belongs to the `visited` set of at most one active job:
any two registry entries have disjoint `visited` sets. -/
def jobsExclusive (jobs : List (Nat × List Nat)) : Prop :=
  List.Pairwise (fun a b => ∀ f ∈ a.2, f ∉ b.2) jobs

instance (jobs : List (Nat × List Nat)) : Decidable (jobsExclusive jobs) :=
  List.instDecidablePairwise _

/-- An operation is a `visitFile` call recording a non-empty path. -/
def POp.isVisitNonEmpty : POp → Prop
  | .visit _ p _ => p ≠ ""
  | .release _ => False

instance (op : POp) : Decidable op.isVisitNonEmpty := by
  cases op <;> simp [POp.isVisitNonEmpty] <;> infer_instance

/-! ### Dependency graph and `IndexerJob::priority` (IndexerJob.cpp lines 71-115) -/

/-- Buffer-state classification returned by `Server::activeBufferType`. -/
inductive BufState where
  | Active
  | Open
  | Inactive
  deriving DecidableEq, Repr

/-- The environment read by `IndexerJob::priority`: the project's dependency
map (`mDependencies`, an entry per known node, each with the ordered list of
file ids of the nodes it `includes`), `Location::path(fileId).isSystem()`,
and `Server::activeBufferType(fileId)`.  `wf` records that every include edge
points into `allIds`, the finite universe of nodes. -/
structure DepGraph where
  allIds : Finset Nat
  includeList : List (Nat × List Nat)
  isSystem : Nat → Bool
  buf : Nat → BufState
  wf : ∀ p ∈ includeList, ∀ c ∈ p.2, c ∈ allIds

/-- Ordered include edges of a node (`node->includes`, values' file ids in
map order); a file with no dependency node has no edges. -/
def DepGraph.includes (g : DepGraph) (n : Nat) : List Nat :=
  (alookup g.includeList n).getD []

/-- Whether `p->dependencyNode(fileId)` is non-null. -/
def DepGraph.hasDepNode (g : DepGraph) (n : Nat) : Bool :=
  (alookup g.includeList n).isSome

/-- Embedding of the loop body of the recursive lambda `func` inside
`IndexerJob::priority` (IndexerJob.cpp lines 95-104).  `n` is the node whose
include list `cs` is being iterated, `seen` the traversal's visited set,
`descend` the recursive call `func(inc.second)`.  Exactly as in the source,
each include target is inserted into `seen` first; the system-header test
and the buffer-state test are then made on the *current* node `n`
(`n->fileId` in the source), and the descent into the include target happens
only when `n` is inactive. -/
def visitLoop (descend : Nat → Finset Nat → Option (Bool × Finset Nat))
    (g : DepGraph) (n : Nat) : List Nat → Finset Nat → Option (Bool × Finset Nat)
  | [], seen => some (false, seen)
  | c :: rest, seen =>
    if c ∈ seen then visitLoop descend g n rest seen
    else if g.isSystem n then visitLoop descend g n rest (insert c seen)
    else if g.buf n ≠ BufState.Inactive then some (true, insert c seen)
    else
      match descend c (insert c seen) with
      | none => none
      | some (true, s) => some (true, s)
      | some (false, s) => visitLoop descend g n rest s

/-- Embedding of one call `func(n)`: iterate over `n`'s includes, descending
recursively.  The C++ recursion carries no fuel; here fuel bounds the descent
depth and `none` means it ran out — `visitNode_isSome` shows the bound
`allIds.card + 1` always suffices, which is the termination of the C++
recursion on every finite graph. -/
def visitNode (g : DepGraph) : Nat → Nat → Finset Nat → Option (Bool × Finset Nat)
  | 0, _, _ => none
  | f + 1, n, seen => visitLoop (fun c s => visitNode g f c s) g n (g.includes n) seen

/-- Result of running `func` on the dependency node of `fileId` with the
initial visited set `{node}` and an adequate depth bound, as `priority()`
does (`seen.insert(node); if (func(node)) ret += 2`). -/
def dfsHit (g : DepGraph) (fileId : Nat) : Bool :=
  match visitNode g (g.allIds.card + 1) fileId {fileId} with
  | some (b, _) => b
  | none => false

/-- Embedding of `IndexerJob::priority` (IndexerJob.cpp lines 71-115):
`+1` for `Dirty` else `+4` for `Reindex`; `+8` for an `Active` primary file,
`+3` for `Open`; for `Inactive`, `+2` when a dependency node exists and the
traversal returns true; `+1` when the owning project is current. -/
def priorityOf (g : DepGraph) (dirty reindex : Bool) (fileId : Nat)
    (isCurrentProject : Bool) : Nat :=
  (if dirty then 1 else if reindex then 4 else 0)
    + (match g.buf fileId with
       | .Active => 8
       | .Open => 3
       | .Inactive => if g.hasDepNode fileId && dfsHit g fileId then 2 else 0)
    + (if isCurrentProject then 1 else 0)

/-- Modelled from the spec: the reachability the documentation ascribes to the
traversal — "a bounded depth-first search over `includes`, visiting each node
at most once, skipping files classified as system headers, finds a file whose
buffer state is Active or Open (transitively, i.e. an Inactive included file
whose own includes are searched recursively)".  `SpecReach g n` holds when an
Active-or-Open non-system file is reachable from `n` along include edges
through Inactive non-system intermediate files. -/
inductive SpecReach (g : DepGraph) : Nat → Prop where
  | found {n c : Nat} : c ∈ g.includes n → g.isSystem c = false →
      g.buf c ≠ BufState.Inactive → SpecReach g n
  | step {n c : Nat} : c ∈ g.includes n → g.isSystem c = false →
      g.buf c = BufState.Inactive → SpecReach g c → SpecReach g n

/-- Concrete graph for the `priority` traversal defect: file 1 (Inactive,
non-system) directly includes file 2 (Active, non-system, no includes of its
own). -/
def gLeafActive : DepGraph where
  allIds := {1, 2}
  includeList := [(1, [2])]
  isSystem := fun _ => false
  buf := fun n => if n = 2 then BufState.Active else BufState.Inactive
  wf := by decide

/-- Concrete cyclic graph: 1 includes 2, 2 includes 1 and 3, 3 (Active)
includes 4. -/
def gCycle : DepGraph where
  allIds := {1, 2, 3, 4}
  includeList := [(1, [2]), (2, [1, 3]), (3, [4])]
  isSystem := fun _ => false
  buf := fun n => if n = 3 then BufState.Active else BufState.Inactive
  wf := by decide

/-- Concrete graph with no edges at all (used to exhibit an Inactive file with
nothing reachable). -/
def gEmpty (bufFn : Nat → BufState) : DepGraph where
  allIds := ∅
  includeList := []
  isSystem := fun _ => false
  buf := bufFn
  wf := by simp

/-! ### `IndexerJob` construction (IndexerJob.cpp lines 33-59) -/

/-- One pass of the constructor's deduplication loop: append `src` to the kept
list unless some already-kept source compares argument-equal to it
(`src.compareArguments(sources.at(j))`). -/
def keepSource {α : Type} (eq : α → α → Bool) (kept : List α) (src : α) : List α :=
  if kept.any (fun j => eq src j) then kept else kept ++ [src]

/-- The `sources` sequence built by the `IndexerJob` constructor from a
non-empty input: `sources.push_back(s.front())` then the deduplication loop
over `s[1..]`.  `compareArguments` is kept abstract as `eq` (its definition,
`Source::compareArguments`, is not part of these sources). -/
def buildSources {α : Type} (eq : α → α → Bool) : List α → List α
  | [] => []
  | x :: rest => rest.foldl (keepSource eq) [x]

/-- Claim-side reference: keep exactly every input element no earlier input
element is equivalent to, at its original relative position. -/
def firstOccAux {α : Type} (eq : α → α → Bool) (prev : List α) : List α → List α
  | [] => []
  | y :: ys =>
    if prev.any (fun z => eq z y) then firstOccAux eq (prev ++ [y]) ys
    else y :: firstOccAux eq (prev ++ [y]) ys

/-- First occurrences of each equivalence class of the input, in input order. -/
def firstOccurrences {α : Type} (eq : α → α → Bool) (s : List α) : List α :=
  firstOccAux eq [] s

/-- How a run of the `IndexerJob` constructor can fail: `s.front()` on an
empty list is an out-of-bounds access (it precedes every check in the body),
and `assert(!sources.empty())` is the constructor's own assertion. -/
inductive CtorFailure where
  | frontOnEmpty
  | assertEmptySources
  deriving DecidableEq, Repr

/-- Embedding of the `IndexerJob` constructor body that handles the source
list (IndexerJob.cpp lines 41-55), with each fatal exit made explicit:
`sources.push_back(s.front())` faults on an empty input before anything else;
afterwards the deduplication loop runs and `assert(!sources.empty())` is
checked on the built list. -/
def constructJobSources {α : Type} (eq : α → α → Bool) (s : List α) :
    Except CtorFailure (List α) :=
  match s with
  | [] => .error .frontOnEmpty
  | x :: rest =>
    let sources := buildSources eq (x :: rest)
    if sources.isEmpty then .error .assertEmptySources else .ok sources

/-- Boolean equality on `Bool`, a concrete stand-in for `compareArguments`
used by witnesses. -/
def beqBool (a b : Bool) : Bool := a == b

/-! ### `IndexerJob::encode` argument pipeline (IndexerJob.cpp lines 131-163)

Only the steps visible in this source file are modelled; the external
`CompilerManager::applyToSource`, `Server::filterBlockedArguments`,
include-path prepending and PCH fix-up do not live in these sources and are
taken at the configuration where they leave `arguments` unchanged (compiler
manager disabled, empty block list); they could only remove or leave
arguments in any case. -/

/-- Server options consulted by the encode pipeline for the argument list. -/
structure EncodeOptions where
  allowWErrorAndWFatalErrors : Bool
  allowPedantic : Bool
  defaultArguments : List String
  deriving Repr

/-- Embedding of the argument transformation applied to each source before it
is serialized: erase the first `"-Werror"` and the first `"-Wfatal-errors"`
(each via `std::find` + single `erase`) unless allowed, append the
process-wide default arguments, then erase the first `"-Wpedantic"` unless
allowed. -/
def transformArguments (o : EncodeOptions) (args : List String) : List String :=
  let a1 := if o.allowWErrorAndWFatalErrors then args
            else (args.erase "-Werror").erase "-Wfatal-errors"
  let a2 := a1 ++ o.defaultArguments
  if o.allowPedantic then a2 else a2.erase "-Wpedantic"

/-! ### Symbol listing (ListSymbolsJob.cpp) -/

/-- Whether a symbol name contains a parenthesis (`indexOf('(') != -1`). -/
def hasParen (s : String) : Bool := s.toList.any (fun c => c = '(')

/-- The name truncated before its first `'('`
(`symbolName.left(symbolName.indexOf('('))`). -/
def bareName (s : String) : String :=
  String.mk (s.toList.takeWhile (fun c => c ≠ '('))

/-- Strings inserted into `out` for one symbol that passed the match and kind
filters in `ListSymbolsJob::listSymbolsWithPathFilter` (lines 133-143):
stripping emits the bare form unless the name has no parenthesis (full form)
or is a function-pointer variable (nothing); not stripping emits only the
full form. -/
def pathFilterEmit (stripParentheses : Bool) (isFuncVar : String → Bool)
    (name : String) : List String :=
  if stripParentheses then
    if hasParen name = false then [name]
    else if isFuncVar name then [] else [bareName name]
  else [name]

/-- Strings inserted into `out` for one accepted symbol name in
`ListSymbolsJob::listSymbols` (lines 175-183): a parenthesized name yields
the bare form unless it is a function-pointer variable, plus the full form
unless stripping. -/
def listSymbolsEmit (stripParentheses : Bool) (isFuncVar : String → Bool)
    (name : String) : List String :=
  if hasParen name = false then [name]
  else (if isFuncVar name then [] else [bareName name])
       ++ (if stripParentheses then [] else [name])

/-- Embedding of the query adjustment in `ListSymbolsJob::execute` (lines
49-52) on the query's character list: when wildcard matching is requested and
the query contains `'*'` or `'?'` but does not end with `'*'`, a `'*'` is
appended. -/
def adjustWildcardQuery (wildcardFlag : Bool) (q : List Char) : List Char :=
  if wildcardFlag ∧ ('*' ∈ q ∨ '?' ∈ q) ∧ q.getLast? ≠ some '*' then q ++ ['*']
  else q

/-- Helper for glob matching a leading `'*'`: the rest of the pattern,
matched by `m`, may consume any suffix of the string. -/
def globStar (m : List Char → Bool) : List Char → Bool
  | [] => m []
  | d :: s' => m (d :: s') || globStar m s'

/-- Modelled from the spec: `Project::matchSymbolName` is not part of these
sources; the spec specifies "optional wildcard syntax (`*`, `?`)" for symbol
queries, so wildcard matching is the standard glob semantics where `'*'`
matches any sequence of characters and `'?'` exactly one. -/
def globMatch : List Char → List Char → Bool
  | [], s => s.isEmpty
  | c :: ps, s =>
    if c = '*' then globStar (globMatch ps) s
    else
      match s with
      | [] => false
      | d :: s' => (c = '?' || c = d) && globMatch ps s'

/-! ### Lemmas about association lists -/

theorem alookup_ainsert {β : Type} (l : List (Nat × β)) (n m : Nat) (b : β) :
    alookup (ainsert l n b) m = if n = m then some b else alookup l m := by
  induction l with
  | nil => simp [ainsert, alookup]
  | cons hd tl ih =>
    obtain ⟨k, v⟩ := hd
    by_cases hk : k = n
    · subst hk
      simp only [ainsert, if_pos rfl, alookup]
      by_cases hm : k = m <;> simp [alookup, hm]
    · by_cases hm : k = m
      · subst hm
        have hnm : n ≠ k := fun h => hk h.symm
        simp [ainsert, alookup, hk, hnm]
      · simp [ainsert, alookup, hk, hm, ih]

theorem pairwise_trivial {α : Type} {R : α → α → Prop} (h : ∀ a b, R a b) :
    ∀ l : List α, List.Pairwise R l
  | [] => .nil
  | x :: xs => .cons (fun y _ => h x y) (pairwise_trivial h xs)

theorem addToJob_mem (jobs : List (Nat × List Nat)) (key f : Nat) :
    ∀ b ∈ addToJob jobs key f, ∃ b0 ∈ jobs, b.1 = b0.1 ∧ ∀ x ∈ b.2, x = f ∨ x ∈ b0.2 := by
  induction jobs with
  | nil => simp [addToJob]
  | cons hd tl ih =>
    obtain ⟨k, v⟩ := hd
    intro b hb
    by_cases hk : k = key
    · simp only [addToJob, if_pos hk, List.mem_cons] at hb
      rcases hb with rfl | hb
      · refine ⟨(k, v), List.mem_cons_self _ _, rfl, ?_⟩
        intro x hx
        by_cases hfv : f ∈ v
        · simp only [if_pos hfv] at hx
          exact Or.inr hx
        · simp only [if_neg hfv, List.mem_cons] at hx
          exact hx
      · exact ⟨b, List.mem_cons_of_mem _ hb, rfl, fun x hx => Or.inr hx⟩
    · simp only [addToJob, if_neg hk, List.mem_cons] at hb
      rcases hb with rfl | hb
      · exact ⟨(k, v), List.mem_cons_self _ _, rfl, fun x hx => Or.inr hx⟩
      · obtain ⟨b0, hb0, h1, h2⟩ := ih b hb
        exact ⟨b0, List.mem_cons_of_mem _ hb0, h1, h2⟩

theorem addToJob_pairwise (jobs : List (Nat × List Nat)) (key f : Nat)
    (hp : List.Pairwise (fun a b => ∀ x ∈ a.2, x ∉ b.2) jobs)
    (hfresh : ∀ kv ∈ jobs, f ∉ kv.2) :
    List.Pairwise (fun a b => ∀ x ∈ a.2, x ∉ b.2) (addToJob jobs key f) := by
  induction jobs with
  | nil => simp [addToJob]
  | cons hd tl ih =>
    obtain ⟨k, v⟩ := hd
    obtain ⟨hhd, htl⟩ := List.pairwise_cons.mp hp
    by_cases hk : k = key
    · simp only [addToJob, if_pos hk]
      refine List.pairwise_cons.mpr ⟨?_, htl⟩
      intro b hb x hx
      by_cases hfv : f ∈ v
      · simp only [if_pos hfv] at hx
        exact hhd b hb x hx
      · simp only [if_neg hfv, List.mem_cons] at hx
        rcases hx with rfl | hx
        · exact hfresh b (List.mem_cons_of_mem _ hb)
        · exact hhd b hb x hx
    · simp only [addToJob, if_neg hk]
      refine List.pairwise_cons.mpr
        ⟨?_, ih htl (fun kv hkv => hfresh kv (List.mem_cons_of_mem _ hkv))⟩
      intro b hb x hx
      obtain ⟨b0, hb0, _, h2⟩ := addToJob_mem tl key f b hb
      intro hxb
      rcases h2 x hxb with hxf | hxb0
      · subst hxf
        exact hfresh (k, v) (by simp) hx
      · exact hhd b0 hb0 x hx hxb0

/-! ### The visitation invariant -/

/-- Invariant tying jobs' visited sets to the project's visited-files map:
visited sets are pairwise disjoint, and every file id in some job's visited
set carries a non-empty path in the map. -/
def VisitInv (st : PState) : Prop :=
  jobsExclusive st.jobs ∧
    ∀ kv ∈ st.jobs, ∀ x ∈ kv.2, (alookup st.visitedFiles x).getD "" ≠ ""

theorem visitInv_init (keys : List Nat) : VisitInv (initState keys) := by
  constructor
  · show List.Pairwise _ ((keys.map fun k => (k, [])))
    rw [List.pairwise_map]
    exact pairwise_trivial (by simp) _
  · intro kv hkv x hx
    simp only [initState, List.mem_map] at hkv
    obtain ⟨k, _, rfl⟩ := hkv
    simp at hx

theorem visitInv_step (st : PState) (op : POp) (hop : op.isVisitNonEmpty)
    (hInv : VisitInv st) : VisitInv (runOp st op) := by
  obtain ⟨hex, hrec⟩ := hInv
  cases op with
  | release fs => exact absurd hop (by simp [POp.isVisitNonEmpty])
  | visit f p k =>
    simp only [POp.isVisitNonEmpty] at hop
    simp only [runOp, Project.visitFile]
    by_cases hcur : (alookup st.visitedFiles f).getD "" = ""
    · have hfresh : ∀ kv ∈ st.jobs, f ∉ kv.2 := by
        intro kv hkv hf
        exact hrec kv hkv f hf hcur
      by_cases hk : k ≠ 0
      · simp only [if_pos hcur, if_pos hk]
        cases hjob : alookup st.jobs k with
        | none => exact ⟨hex, hrec⟩
        | some j =>
          refine ⟨addToJob_pairwise _ _ _ hex hfresh, ?_⟩
          intro kv hkv x hx
          obtain ⟨kv0, hkv0, _, h2⟩ := addToJob_mem st.jobs k f kv hkv
          rcases h2 x hx with rfl | hx0
          · simp [alookup_ainsert, hop]
          · have hx0ne : (alookup st.visitedFiles x).getD "" ≠ "" := hrec kv0 hkv0 x hx0
            have hxf : ¬(f = x) := fun h => hx0ne (h ▸ hcur)
            simpa [alookup_ainsert, hxf] using hx0ne
      · simp only [if_pos hcur, if_neg hk]
        refine ⟨hex, ?_⟩
        intro kv hkv x hx
        have hx0ne : (alookup st.visitedFiles x).getD "" ≠ "" := hrec kv hkv x hx
        have hxf : ¬(f = x) := fun h => hx0ne (h ▸ hcur)
        simpa [alookup_ainsert, hxf] using hx0ne
    · simp only [if_neg hcur]
      exact ⟨hex, hrec⟩

theorem visitInv_run (st : PState) (ops : List POp)
    (h : ∀ op ∈ ops, op.isVisitNonEmpty) (hInv : VisitInv st) :
    VisitInv (runOps st ops) := by
  induction ops generalizing st with
  | nil => exact hInv
  | cons op rest ih =>
    exact ih _ (fun o ho => h o (by simp [ho]))
      (visitInv_step st op (h op (by simp)) hInv)

/-! ### Claims C1 and C2 -/

/-- C1: for every project state, a `visitFile` call for a file identifier
already present in the visited map with a recorded (non-empty) path returns
false — for any path and any key — and leaves the state, in particular the
stored path, unchanged; a first call for an absent identifier (under a valid
key) returns true and records its path. -/
theorem visitFile_first_claim_only :
    (∀ (st : PState) (f : Nat) (p2 : String) (k : Nat),
        (alookup st.visitedFiles f).getD "" ≠ "" →
        Project.visitFile st f p2 k = some (false, st)) ∧
    (∀ (st : PState) (f : Nat) (p : String) (k : Nat),
        alookup st.visitedFiles f = none →
        (k = 0 ∨ (alookup st.jobs k).isSome) →
        ∃ st', Project.visitFile st f p k = some (true, st') ∧
          alookup st'.visitedFiles f = some p) := by
  constructor
  · intro st f p2 k h
    simp [Project.visitFile, h]
  · intro st f p k habsent hkey
    have hcur : (alookup st.visitedFiles f).getD "" = "" := by simp [habsent]
    rcases hkey with rfl | hkey
    · refine ⟨⟨ainsert st.visitedFiles f p, st.jobs⟩, ?_, ?_⟩
      · simp [Project.visitFile, hcur]
      · simp [alookup_ainsert]
    · obtain ⟨j, hj⟩ := Option.isSome_iff_exists.mp hkey
      by_cases hk0 : k = 0
      · subst hk0
        refine ⟨⟨ainsert st.visitedFiles f p, st.jobs⟩, ?_, ?_⟩
        · simp [Project.visitFile, hcur]
        · simp [alookup_ainsert]
      · refine ⟨⟨ainsert st.visitedFiles f p, addToJob st.jobs k f⟩, ?_, ?_⟩
        · simp [Project.visitFile, hcur, hk0, hj]
        · simp [alookup_ainsert]

/-- C1 witness: concrete instantiations of both parts of
`visitFile_first_claim_only`. -/
theorem visitFile_first_claim_only_witness :
    (Project.visitFile ⟨[(7, "x")], [(1, [])]⟩ 7 "y" 3 =
        some (false, ⟨[(7, "x")], [(1, [])]⟩)) ∧
    (∃ st', Project.visitFile ⟨[(7, "x")], [(1, [])]⟩ 8 "p" 1 = some (true, st') ∧
        alookup st'.visitedFiles 8 = some "p") :=
  ⟨visitFile_first_claim_only.1 ⟨[(7, "x")], [(1, [])]⟩ 7 "y" 3 (by decide),
   visitFile_first_claim_only.2 ⟨[(7, "x")], [(1, [])]⟩ 8 "p" 1 (by decide)
     (Or.inr (by decide))⟩

/-- C2 counterexample: with two active jobs 1 and 2, the interleaving
"claim file 5 for job 1, release file 5, claim file 5 for job 2" — all steps
`visitFile` / `releaseFileIds` from the empty visited map — reaches a state
in which file 5 belongs to the visited sets of both jobs, because
`releaseFileIds` re-opens the identifier without clearing job 1's visited
set.  This refutes the claimed invariant for arbitrary interleavings. -/
theorem visited_exclusive_counterexample :
    ¬ jobsExclusive (runOps (initState [1, 2])
        [.visit 5 "a" 1, .release [5], .visit 5 "a" 2]).jobs := by decide

/-- C2 (amended): in every state reachable from the empty visited map by
`visitFile` steps alone (each recording a non-empty path), every file
identifier belongs to the visited set of at most one active job; exclusivity
can be broken only by a `releaseFileIds` step, which re-opens an identifier
without clearing the releasing job's visited set. -/
theorem visited_exclusive_of_visit_only (keys : List Nat) (ops : List POp)
    (h : ∀ op ∈ ops, op.isVisitNonEmpty) :
    jobsExclusive (runOps (initState keys) ops).jobs :=
  (visitInv_run _ ops h (visitInv_init keys)).1

/-- C2 witness: `visited_exclusive_of_visit_only` applied to a concrete
two-job trace. -/
theorem visited_exclusive_of_visit_only_witness :
    (∀ op ∈ ([.visit 5 "a" 1, .visit 6 "b" 2, .visit 5 "c" 2] : List POp),
        op.isVisitNonEmpty) ∧
    jobsExclusive (runOps (initState [1, 2])
        [.visit 5 "a" 1, .visit 6 "b" 2, .visit 5 "c" 2]).jobs :=
  ⟨by decide, visited_exclusive_of_visit_only [1, 2] _ (by decide)⟩

/-! ### Lemmas about the priority traversal -/

theorem alookup_mem {β : Type} (l : List (Nat × β)) (n : Nat) (v : β)
    (h : alookup l n = some v) : (n, v) ∈ l := by
  induction l with
  | nil => simp [alookup] at h
  | cons hd tl ih =>
    obtain ⟨k, w⟩ := hd
    by_cases hk : k = n
    · subst hk
      simp [alookup] at h
      subst h
      exact List.mem_cons_self _ _
    · simp only [alookup, if_neg hk] at h
      exact List.mem_cons_of_mem _ (ih h)

theorem includes_mem_allIds (g : DepGraph) (n c : Nat) (h : c ∈ g.includes n) :
    c ∈ g.allIds := by
  unfold DepGraph.includes at h
  cases hl : alookup g.includeList n with
  | none => rw [hl] at h; simp at h
  | some v =>
    rw [hl] at h
    simp only [Option.getD_some] at h
    exact g.wf (n, v) (alookup_mem _ _ _ hl) c h

theorem visitLoop_mono (g : DepGraph) (n : Nat)
    (descend : Nat → Finset Nat → Option (Bool × Finset Nat))
    (hrec : ∀ c seen' b' s', descend c seen' = some (b', s') → seen' ⊆ s') :
    ∀ (cs : List Nat) (seen : Finset Nat) (b : Bool) (s : Finset Nat),
      visitLoop descend g n cs seen = some (b, s) → seen ⊆ s := by
  intro cs
  induction cs with
  | nil =>
    intro seen b s h
    simp only [visitLoop, Option.some.injEq, Prod.mk.injEq] at h
    rw [← h.2]
  | cons c rest ih =>
    intro seen b s h
    simp only [visitLoop] at h
    by_cases hmem : c ∈ seen
    · rw [if_pos hmem] at h
      exact ih seen b s h
    · rw [if_neg hmem] at h
      by_cases hsys : g.isSystem n
      · rw [if_pos hsys] at h
        exact (Finset.subset_insert c seen).trans (ih _ b s h)
      · rw [if_neg hsys] at h
        by_cases hbuf : g.buf n ≠ BufState.Inactive
        · rw [if_pos hbuf] at h
          simp only [Option.some.injEq, Prod.mk.injEq] at h
          rw [← h.2]
          exact Finset.subset_insert c seen
        · rw [if_neg hbuf] at h
          cases hd : descend c (insert c seen) with
          | none => rw [hd] at h; exact Option.noConfusion h
          | some r =>
            obtain ⟨b', s'⟩ := r
            rw [hd] at h
            have hds : insert c seen ⊆ s' := hrec c _ b' s' hd
            cases b' with
            | true =>
              simp only [Option.some.injEq, Prod.mk.injEq] at h
              rw [← h.2]
              exact (Finset.subset_insert c seen).trans hds
            | false =>
              exact ((Finset.subset_insert c seen).trans hds).trans (ih s' b s h)

theorem visitNode_mono (g : DepGraph) :
    ∀ (fuel n : Nat) (seen : Finset Nat) (b : Bool) (s : Finset Nat),
      visitNode g fuel n seen = some (b, s) → seen ⊆ s := by
  intro fuel
  induction fuel with
  | zero => intro n seen b s h; exact Option.noConfusion h
  | succ f ih =>
    intro n seen b s h
    exact visitLoop_mono g n _ (fun c s' b' s'' hc => ih c s' b' s'' hc) _ seen b s h

theorem visitLoop_isSome (g : DepGraph) (n : Nat) (bound : Nat)
    (descend : Nat → Finset Nat → Option (Bool × Finset Nat))
    (hrec : ∀ c seen', (g.allIds \ seen').card < bound → (descend c seen').isSome)
    (hrecMono : ∀ c seen' b' s', descend c seen' = some (b', s') → seen' ⊆ s') :
    ∀ (cs : List Nat) (seen : Finset Nat), (∀ c ∈ cs, c ∈ g.allIds) →
      (g.allIds \ seen).card ≤ bound → (visitLoop descend g n cs seen).isSome := by
  intro cs
  induction cs with
  | nil => intro seen _ _; simp [visitLoop]
  | cons c rest ih =>
    intro seen hcs hcard
    simp only [visitLoop]
    by_cases hmem : c ∈ seen
    · rw [if_pos hmem]
      exact ih seen (fun x hx => hcs x (List.mem_cons_of_mem _ hx)) hcard
    · rw [if_neg hmem]
      have hc : c ∈ g.allIds \ seen :=
        Finset.mem_sdiff.mpr ⟨hcs c (List.mem_cons_self c rest), hmem⟩
      have hdec : (g.allIds \ insert c seen).card < (g.allIds \ seen).card := by
        rw [Finset.sdiff_insert]
        exact Finset.card_erase_lt_of_mem hc
      by_cases hsys : g.isSystem n
      · rw [if_pos hsys]
        exact ih _ (fun x hx => hcs x (List.mem_cons_of_mem _ hx)) (by omega)
      · rw [if_neg hsys]
        by_cases hbuf : g.buf n ≠ BufState.Inactive
        · rw [if_pos hbuf]
          rfl
        · rw [if_neg hbuf]
          have hsome := hrec c (insert c seen) (by omega)
          cases hd : descend c (insert c seen) with
          | none => rw [hd] at hsome; simp at hsome
          | some r =>
            obtain ⟨b', s'⟩ := r
            cases b' with
            | true => rfl
            | false =>
              have hsub : insert c seen ⊆ s' := hrecMono c _ false s' hd
              refine ih s' (fun x hx => hcs x (List.mem_cons_of_mem _ hx)) ?_
              have : g.allIds \ s' ⊆ g.allIds \ insert c seen :=
                Finset.sdiff_subset_sdiff (le_refl _) hsub
              have := Finset.card_le_card this
              omega

theorem visitNode_isSome (g : DepGraph) :
    ∀ (fuel n : Nat) (seen : Finset Nat), (g.allIds \ seen).card < fuel →
      (visitNode g fuel n seen).isSome := by
  intro fuel
  induction fuel with
  | zero => intro n seen h; omega
  | succ f ih =>
    intro n seen hcard
    exact visitLoop_isSome g n f _ (fun c s' hs' => ih c s' hs')
      (fun c s' b' s'' hc => visitNode_mono g f c s' b' s'' hc)
      (g.includes n) seen (fun x hx => includes_mem_allIds g n x hx) (by omega)

theorem visitLoop_sound (g : DepGraph) (n : Nat)
    (descend : Nat → Finset Nat → Option (Bool × Finset Nat))
    (hrec : ∀ c seen' s', descend c seen' = some (true, s') →
      g.isSystem c = false ∧ (g.buf c ≠ BufState.Inactive ∨ SpecReach g c)) :
    ∀ (cs : List Nat) (seen : Finset Nat) (s : Finset Nat),
      (∀ c ∈ cs, c ∈ g.includes n) → visitLoop descend g n cs seen = some (true, s) →
      g.isSystem n = false ∧ (g.buf n ≠ BufState.Inactive ∨ SpecReach g n) := by
  intro cs
  induction cs with
  | nil => intro seen s _ h; simp [visitLoop] at h
  | cons c rest ih =>
    intro seen s hcs h
    simp only [visitLoop] at h
    by_cases hmem : c ∈ seen
    · rw [if_pos hmem] at h
      exact ih seen s (fun x hx => hcs x (List.mem_cons_of_mem _ hx)) h
    · rw [if_neg hmem] at h
      by_cases hsys : g.isSystem n
      · rw [if_pos hsys] at h
        exact ih _ s (fun x hx => hcs x (List.mem_cons_of_mem _ hx)) h
      · rw [if_neg hsys] at h
        by_cases hbuf : g.buf n ≠ BufState.Inactive
        · exact ⟨by simpa using hsys, Or.inl hbuf⟩
        · rw [if_neg hbuf] at h
          cases hd : descend c (insert c seen) with
          | none => rw [hd] at h; exact Option.noConfusion h
          | some r =>
            obtain ⟨b', s'⟩ := r
            rw [hd] at h
            cases b' with
            | true =>
              obtain ⟨hsysc, hor⟩ := hrec c _ s' hd
              refine ⟨by simpa using hsys, Or.inr ?_⟩
              have hcinc : c ∈ g.includes n := hcs c (List.mem_cons_self c rest)
              by_cases hbufc : g.buf c = BufState.Inactive
              · rcases hor with hne | hreach
                · exact absurd hbufc hne
                · exact SpecReach.step hcinc hsysc hbufc hreach
              · exact SpecReach.found hcinc hsysc hbufc
            | false =>
              exact ih s' s (fun x hx => hcs x (List.mem_cons_of_mem _ hx)) h

theorem visitNode_sound (g : DepGraph) :
    ∀ (fuel n : Nat) (seen : Finset Nat) (s : Finset Nat),
      visitNode g fuel n seen = some (true, s) →
      g.isSystem n = false ∧ (g.buf n ≠ BufState.Inactive ∨ SpecReach g n) := by
  intro fuel
  induction fuel with
  | zero => intro n seen s h; exact Option.noConfusion h
  | succ f ih =>
    intro n seen s h
    exact visitLoop_sound g n _ (fun c s' s'' hc => ih c s' s'' hc)
      (g.includes n) seen s (fun x hx => hx) h

/-- C3: evaluation of the priority traversal at the failing input.  On
`gLeafActive` — primary file 1 is Inactive, has a dependency node, and
directly includes the Active non-system file 2 — the spec-side reachability
holds, yet the code's traversal returns false and `priority()` adds no `+2`:
the source tests `n->fileId` (the including node) instead of the included
file when deciding whether an Active/Open file has been found, so an
Active file with no include edge of its own is never detected. -/
theorem priority_plus_two_misses_direct_active :
    gLeafActive.buf 1 = BufState.Inactive ∧
    gLeafActive.hasDepNode 1 = true ∧
    SpecReach gLeafActive 1 ∧
    dfsHit gLeafActive 1 = false ∧
    priorityOf gLeafActive false false 1 false = 0 := by
  refine ⟨by decide, by decide, ?_, by decide, by decide⟩
  exact SpecReach.found (n := 1) (c := 2) (by decide) (by decide) (by decide)

/-- C4: the recursive traversal inside `priority()` terminates on every
finite dependency graph — the depth bound `allIds.card + 1` used by `dfsHit`
always produces a result, because each descent is preceded by a fresh
insertion into the seen-set — and on the concrete cyclic graph `gCycle`
(1 includes 2, 2 includes 1 and 3, 3 Active) it terminates and reports the
hit beyond the cycle. -/
theorem priority_traversal_terminates :
    (∀ (g : DepGraph) (n : Nat), (visitNode g (g.allIds.card + 1) n {n}).isSome) ∧
    dfsHit gCycle 1 = true := by
  constructor
  · intro g n
    apply visitNode_isSome
    have hsub : g.allIds \ {n} ⊆ g.allIds := Finset.sdiff_subset
    have := Finset.card_le_card hsub
    omega
  · decide

theorem dfsHit_false_of_not_specReach (g : DepGraph) (f : Nat)
    (hbuf : g.buf f = BufState.Inactive) (hreach : ¬ SpecReach g f) :
    dfsHit g f = false := by
  cases hd : dfsHit g f with
  | false => rfl
  | true =>
    exfalso
    unfold dfsHit at hd
    cases hv : visitNode g (g.allIds.card + 1) f {f} with
    | none => rw [hv] at hd; exact Bool.noConfusion hd
    | some r =>
      obtain ⟨b, s⟩ := r
      rw [hv] at hd
      simp only at hd
      subst hd
      obtain ⟨_, hor⟩ := visitNode_sound g _ f {f} s hv
      rcases hor with hne | hreach'
      · exact hne hbuf
      · exact hreach hreach'

/-- C9: priority is monotone in the primary file's buffer state.  For three
jobs identical except for the primary file's buffer state (same Dirty /
Reindex flags, same current-project bit), the Active job's priority is at
least the Open job's, which is at least the priority of an Inactive job from
whose file no Active-or-Open file is reachable through the dependency
graph. -/
theorem priority_monotone_buffer (g1 g2 g3 : DepGraph) (f : Nat)
    (dirty reindex cur : Bool)
    (h1 : g1.buf f = BufState.Active) (h2 : g2.buf f = BufState.Open)
    (h3 : g3.buf f = BufState.Inactive) (hreach : ¬ SpecReach g3 f) :
    priorityOf g2 dirty reindex f cur ≤ priorityOf g1 dirty reindex f cur ∧
    priorityOf g3 dirty reindex f cur ≤ priorityOf g2 dirty reindex f cur := by
  have hno : dfsHit g3 f = false := dfsHit_false_of_not_specReach g3 f h3 hreach
  unfold priorityOf
  rw [h1, h2, h3, hno]
  simp only [Bool.and_false, if_false]
  cases dirty <;> cases reindex <;> cases cur <;> simp

/-- C9 witness: `priority_monotone_buffer` on three edgeless graphs whose
file 0 is Active, Open and Inactive respectively. -/
theorem priority_monotone_buffer_witness :
    priorityOf (gEmpty fun _ => BufState.Open) false false 0 false ≤
      priorityOf (gEmpty fun _ => BufState.Active) false false 0 false ∧
    priorityOf (gEmpty fun _ => BufState.Inactive) false false 0 false ≤
      priorityOf (gEmpty fun _ => BufState.Open) false false 0 false :=
  priority_monotone_buffer _ _ _ 0 false false false rfl rfl rfl
    (fun h => by
      cases h with
      | found hc _ _ => simp [DepGraph.includes, gEmpty, alookup] at hc
      | step hc _ _ _ => simp [DepGraph.includes, gEmpty, alookup] at hc)

/-! ### Claims C5 and C6: IndexerJob construction -/

theorem buildSources_aux {α : Type} (eq : α → α → Bool)
    (hsymm : ∀ a b, eq a b = eq b a)
    (htrans : ∀ a b c, eq a b = true → eq b c = true → eq a c = true) :
    ∀ (input prev kept : List α),
      (∀ w, (∃ j ∈ kept, eq w j = true) ↔ ∃ z ∈ prev, eq z w = true) →
      List.Pairwise (fun a b => eq a b = false) kept →
      List.Pairwise (fun a b => eq a b = false) (input.foldl (keepSource eq) kept) ∧
        input.foldl (keepSource eq) kept = kept ++ firstOccAux eq prev input := by
  intro input
  induction input with
  | nil =>
    intro prev kept hinv hpw
    exact ⟨hpw, by simp [firstOccAux]⟩
  | cons y ys ih =>
    intro prev kept hinv hpw
    by_cases hy : kept.any (fun j => eq y j) = true
    · have hyex : ∃ j ∈ kept, eq y j = true := List.any_eq_true.mp hy
      have hyprev : prev.any (fun z => eq z y) = true :=
        List.any_eq_true.mpr ((hinv y).mp hyex)
      have hskip : keepSource eq kept y = kept := by simp [keepSource, hy]
      have hinv' : ∀ w, (∃ j ∈ kept, eq w j = true) ↔ ∃ z ∈ prev ++ [y], eq z w = true := by
        intro w
        constructor
        · intro hw
          obtain ⟨z, hz, hzw⟩ := (hinv w).mp hw
          exact ⟨z, List.mem_append_left _ hz, hzw⟩
        · intro hw
          obtain ⟨z, hz, hzw⟩ := hw
          rcases List.mem_append.mp hz with hz | hz
          · exact (hinv w).mpr ⟨z, hz, hzw⟩
          · obtain ⟨j, hj, hyj⟩ := hyex
            have hzy : z = y := List.mem_singleton.mp hz
            subst hzy
            have hwz : eq w z = true := (hsymm w z) ▸ hzw
            exact ⟨j, hj, htrans w z j hwz hyj⟩
      obtain ⟨pw, eqn⟩ := ih (prev ++ [y]) kept hinv' hpw
      refine ⟨?_, ?_⟩
      · simpa [List.foldl_cons, hskip] using pw
      · rw [List.foldl_cons, hskip, eqn, firstOccAux, if_pos hyprev]
    · have hyall : ∀ j ∈ kept, eq y j = false := by
        intro j hj
        cases hej : eq y j with
        | false => rfl
        | true => exact absurd (List.any_eq_true.mpr ⟨j, hj, hej⟩) hy
      have hyprev : ¬ prev.any (fun z => eq z y) = true := by
        intro hz
        obtain ⟨z, hz, hzy⟩ := List.any_eq_true.mp hz
        obtain ⟨j, hj, hyj⟩ := (hinv y).mpr ⟨z, hz, hzy⟩
        exact absurd (hyall j hj) (by simp [hyj])
      have hkeep : keepSource eq kept y = kept ++ [y] := by simp [keepSource, hy]
      have hinv' : ∀ w,
          (∃ j ∈ kept ++ [y], eq w j = true) ↔ ∃ z ∈ prev ++ [y], eq z w = true := by
        intro w
        constructor
        · intro hw
          obtain ⟨j, hj, hwj⟩ := hw
          rcases List.mem_append.mp hj with hj | hj
          · obtain ⟨z, hz, hzw⟩ := (hinv w).mp ⟨j, hj, hwj⟩
            exact ⟨z, List.mem_append_left _ hz, hzw⟩
          · have hjy : j = y := List.mem_singleton.mp hj
            subst hjy
            exact ⟨j, List.mem_append_right _ (List.mem_singleton.mpr rfl),
              (hsymm j w) ▸ hwj⟩
        · intro hw
          obtain ⟨z, hz, hzw⟩ := hw
          rcases List.mem_append.mp hz with hz | hz
          · obtain ⟨j, hj, hwj⟩ := (hinv w).mpr ⟨z, hz, hzw⟩
            exact ⟨j, List.mem_append_left _ hj, hwj⟩
          · have hzy : z = y := List.mem_singleton.mp hz
            subst hzy
            exact ⟨z, List.mem_append_right _ (List.mem_singleton.mpr rfl),
              (hsymm w z) ▸ hzw⟩
      have hpw' : List.Pairwise (fun a b => eq a b = false) (kept ++ [y]) := by
        rw [List.pairwise_append]
        refine ⟨hpw, List.pairwise_singleton _ _, ?_⟩
        intro a ha b hb
        have hby : b = y := List.mem_singleton.mp hb
        subst hby
        rw [hsymm a b]
        exact hyall a ha
      obtain ⟨pw, eqn⟩ := ih (prev ++ [y]) (kept ++ [y]) hinv' hpw'
      refine ⟨?_, ?_⟩
      · simpa [List.foldl_cons, hkeep] using pw
      · rw [List.foldl_cons, hkeep, eqn, firstOccAux, if_neg hyprev]
        simp

/-- C5: for every non-empty source list and every argument-equivalence
relation `eq` (symmetric and transitive, as an equivalence of effective
arguments is), the `sources` sequence built by the constructor contains no
two argument-equivalent entries — in either order — and equals the
subsequence of first occurrences of each equivalence class of the input, in
input order. -/
theorem indexerJob_sources_dedup {α : Type} (eq : α → α → Bool)
    (hsymm : ∀ a b, eq a b = eq b a)
    (htrans : ∀ a b c, eq a b = true → eq b c = true → eq a c = true)
    (x : α) (rest : List α) :
    List.Pairwise (fun a b => eq a b = false ∧ eq b a = false)
      (buildSources eq (x :: rest)) ∧
    buildSources eq (x :: rest) = firstOccurrences eq (x :: rest) := by
  have base_inv : ∀ w, (∃ j ∈ [x], eq w j = true) ↔ ∃ z ∈ [x], eq z w = true := by
    intro w
    simp [hsymm w x]
  have base_pw : List.Pairwise (fun a b => eq a b = false) [x] :=
    List.pairwise_singleton _ _
  obtain ⟨pw, eqn⟩ := buildSources_aux eq hsymm htrans rest [x] [x] base_inv base_pw
  constructor
  · refine List.Pairwise.imp ?_ pw
    intro a b hab
    exact ⟨hab, (hsymm b a).trans hab⟩
  · rw [buildSources, eqn, firstOccurrences, firstOccAux]
    simp

/-- C5 witness: `indexerJob_sources_dedup` on the equivalence `beqBool` and
the concrete input `[true, false, true]`, which dedups to `[true, false]`. -/
theorem indexerJob_sources_dedup_witness :
    List.Pairwise (fun a b => beqBool a b = false ∧ beqBool b a = false)
      (buildSources beqBool [true, false, true]) ∧
    buildSources beqBool [true, false, true] =
      firstOccurrences beqBool [true, false, true] :=
  indexerJob_sources_dedup beqBool (by decide) (by decide) true [false, true]

theorem foldl_keepSource_ne_nil {α : Type} (eq : α → α → Bool) :
    ∀ (input kept : List α), kept ≠ [] → input.foldl (keepSource eq) kept ≠ [] := by
  intro input
  induction input with
  | nil => intro kept h; exact h
  | cons y ys ih =>
    intro kept h
    rw [List.foldl_cons]
    refine ih _ ?_
    unfold keepSource
    by_cases hy : kept.any (fun j => eq y j) = true
    · simpa [hy] using h
    · simp [hy]

/-- C6: the constructor run on the empty source list fails at its very first
action, the out-of-bounds `s.front()` access, before any assertion in the
constructor body is reached; and the constructor's own
`assert(!sources.empty())` can never fail on any input, because it is
evaluated only after `s.front()` has been pushed onto `sources` — the
assertion the claim relies on is dead. -/
theorem constructJob_empty_faults_before_assert :
    constructJobSources beqBool ([] : List Bool) = Except.error CtorFailure.frontOnEmpty ∧
    ∀ {α : Type} (eq : α → α → Bool) (s : List α),
      constructJobSources eq s ≠ Except.error CtorFailure.assertEmptySources := by
  constructor
  · rfl
  · intro α eq s
    cases s with
    | nil => simp [constructJobSources]
    | cons x rest =>
      have hne : buildSources eq (x :: rest) ≠ [] :=
        foldl_keepSource_ne_nil eq rest [x] (by simp)
      simp [constructJobSources, List.isEmpty_iff, hne]

/-! ### Claim C8: the encode argument pipeline -/

/-- C8 counterexample: with warnings-as-errors not allowed, an argument list
containing `"-Werror"` twice still contains `"-Werror"` after the encode
transformation — `std::find` + `erase` removes only the first occurrence —
refuting the claim that the payload contains no occurrence regardless of
multiplicity. -/
theorem encode_strips_werror_counterexample :
    "-Werror" ∈ transformArguments ⟨false, true, []⟩ ["-Werror", "-Werror"] := by decide

/-- C8 (amended): the encode transformation erases only the *first*
occurrence of `"-Werror"` and of `"-Wfatal-errors"`; hence when
warnings-as-errors are not allowed, each of the two flags occurs at most once
in the original arguments, and neither occurs in the process-wide default
arguments (which are appended *after* the stripping), the transformed list
contains no occurrence of either. -/
theorem encode_strips_single_werror (o : EncodeOptions) (args : List String)
    (hallow : o.allowWErrorAndWFatalErrors = false)
    (h1 : args.count "-Werror" ≤ 1) (h2 : args.count "-Wfatal-errors" ≤ 1)
    (h3 : "-Werror" ∉ o.defaultArguments) (h4 : "-Wfatal-errors" ∉ o.defaultArguments) :
    "-Werror" ∉ transformArguments o args ∧
    "-Wfatal-errors" ∉ transformArguments o args := by
  have hwe1 : "-Werror" ∉ args.erase "-Werror" := by
    rw [← List.count_eq_zero]
    have := List.count_erase_self "-Werror" args
    omega
  have hwe2 : "-Werror" ∉ (args.erase "-Werror").erase "-Wfatal-errors" := by
    intro hmem
    exact hwe1 (List.erase_subset _ _ hmem)
  have hwf1 : ((args.erase "-Werror").count "-Wfatal-errors") ≤ 1 := by
    have := (List.erase_sublist "-Werror" args).count_le "-Wfatal-errors"
    omega
  have hwf2 : "-Wfatal-errors" ∉ (args.erase "-Werror").erase "-Wfatal-errors" := by
    rw [← List.count_eq_zero]
    have := List.count_erase_self "-Wfatal-errors" (args.erase "-Werror")
    omega
  have key : ∀ x, x ∉ (args.erase "-Werror").erase "-Wfatal-errors" →
      x ∉ o.defaultArguments → x ∉ transformArguments o args := by
    intro x hx hd hmem
    unfold transformArguments at hmem
    rw [hallow] at hmem
    simp only [Bool.false_eq_true, if_false] at hmem
    have hx2 : x ∉ (args.erase "-Werror").erase "-Wfatal-errors" ++ o.defaultArguments := by
      intro h
      rcases List.mem_append.mp h with h | h
      · exact hx h
      · exact hd h
    by_cases hped : o.allowPedantic
    · rw [if_pos hped] at hmem
      exact hx2 hmem
    · rw [if_neg hped] at hmem
      exact hx2 (List.erase_subset _ _ hmem)
  exact ⟨key _ hwe2 h3, key _ hwf2 h4⟩

/-- C8 witness: `encode_strips_single_werror` on a concrete argument list
containing one occurrence of each stripped flag. -/
theorem encode_strips_single_werror_witness :
    "-Werror" ∉ transformArguments ⟨false, false, ["-O2"]⟩
        ["-Wall", "-Werror", "-Wfatal-errors", "-Wpedantic"] ∧
    "-Wfatal-errors" ∉ transformArguments ⟨false, false, ["-O2"]⟩
        ["-Wall", "-Werror", "-Wfatal-errors", "-Wpedantic"] :=
  encode_strips_single_werror ⟨false, false, ["-O2"]⟩ _ rfl (by decide) (by decide)
    (by decide) (by decide)

/-! ### Claims C7 and C10: symbol listing -/

/-- C7 counterexample: in the path-filtered scan with strip-parentheses off,
the accepted symbol `"foo(int)"` (not a function-pointer variable) is
emitted only in its full parenthesized form; the bare form `"foo"` is not
emitted, refuting the claim for `listSymbolsWithPathFilter`. -/
theorem listSymbols_pathFilter_no_bare_counterexample :
    hasParen "foo(int)" = true ∧
    pathFilterEmit false (fun _ => false) "foo(int)" = ["foo(int)"] ∧
    "foo" ∉ pathFilterEmit false (fun _ => false) "foo(int)" := by decide

/-- C7 (amended): for every symbol name containing a parenthesis that passes
the match and kind filters, the project-wide scan (`listSymbols`) emits both
the bare form (unless the name is a function-pointer variable) and the full
form when strip-parentheses is not requested, and only the bare form when it
is; the path-filtered scan (`listSymbolsWithPathFilter`), however, emits
only the full form when not stripping, and the bare form (unless a
function-pointer variable) when stripping. -/
theorem listSymbols_paren_emission (fv : String → Bool) (name : String)
    (hp : hasParen name = true) :
    listSymbolsEmit false fv name = (if fv name then [] else [bareName name]) ++ [name] ∧
    listSymbolsEmit true fv name = (if fv name then [] else [bareName name]) ∧
    pathFilterEmit false fv name = [name] ∧
    pathFilterEmit true fv name = (if fv name then [] else [bareName name]) := by
  refine ⟨?_, ?_, ?_, ?_⟩ <;> simp [listSymbolsEmit, pathFilterEmit, hp]

/-- C7 witness: `listSymbols_paren_emission` at the symbol `"foo(int)"`. -/
theorem listSymbols_paren_emission_witness :
    listSymbolsEmit false (fun _ => false) "foo(int)" =
      (if (fun (_ : String) => false) "foo(int)" then [] else [bareName "foo(int)"]) ++
        ["foo(int)"] ∧
    listSymbolsEmit true (fun _ => false) "foo(int)" =
      (if (fun (_ : String) => false) "foo(int)" then [] else [bareName "foo(int)"]) ∧
    pathFilterEmit false (fun _ => false) "foo(int)" = ["foo(int)"] ∧
    pathFilterEmit true (fun _ => false) "foo(int)" =
      (if (fun (_ : String) => false) "foo(int)" then [] else [bareName "foo(int)"]) :=
  listSymbols_paren_emission (fun _ => false) "foo(int)" (by decide)

theorem globStar_iff (m : List Char → Bool) :
    ∀ s : List Char, globStar m s = true ↔ ∃ a b, s = a ++ b ∧ m b = true := by
  intro s
  induction s with
  | nil =>
    simp only [globStar]
    constructor
    · intro h
      exact ⟨[], [], rfl, h⟩
    · intro h
      obtain ⟨a, b, hab, hb⟩ := h
      obtain ⟨rfl, rfl⟩ := List.append_eq_nil.mp hab.symm
      exact hb
  | cons d s' ih =>
    simp only [globStar, Bool.or_eq_true, ih]
    constructor
    · intro h
      rcases h with h | ⟨a, b, rfl, hb⟩
      · exact ⟨[], d :: s', rfl, h⟩
      · exact ⟨d :: a, b, rfl, hb⟩
    · intro h
      obtain ⟨a, b, hab, hb⟩ := h
      cases a with
      | nil =>
        simp only [List.nil_append] at hab
        exact Or.inl (hab ▸ hb)
      | cons a0 a' =>
        simp only [List.cons_append, List.cons.injEq] at hab
        obtain ⟨rfl, rfl⟩ := hab
        exact Or.inr ⟨a', b, rfl, hb⟩

theorem globMatch_star_suffix (p : List Char) :
    ∀ s : List Char, globMatch (p ++ ['*']) s = true ↔
      ∃ a b, s = a ++ b ∧ globMatch p a = true := by
  induction p with
  | nil =>
    intro s
    simp only [List.nil_append]
    rw [show globMatch ['*'] s = globStar (globMatch []) s from by simp [globMatch]]
    rw [globStar_iff]
    constructor
    · intro h
      obtain ⟨a, b, rfl, hb⟩ := h
      exact ⟨[], a ++ b, rfl, rfl⟩
    · intro h
      obtain ⟨a, b, hab, ha⟩ := h
      have : a = [] := by simpa [globMatch] using ha
      subst this
      exact ⟨s, [], by simp, by simp [globMatch, hab]⟩
  | cons c ps ih =>
    intro s
    by_cases hc : c = '*'
    · subst hc
      rw [show globMatch (('*' :: ps) ++ ['*']) s =
            globStar (globMatch (ps ++ ['*'])) s from by simp [globMatch]]
      rw [globStar_iff]
      constructor
      · intro h
        obtain ⟨a, b, rfl, hb⟩ := h
        obtain ⟨u, v, rfl, hu⟩ := (ih b).mp hb
        refine ⟨a ++ u, v, by simp, ?_⟩
        rw [show globMatch ('*' :: ps) (a ++ u) =
              globStar (globMatch ps) (a ++ u) from by simp [globMatch]]
        rw [globStar_iff]
        exact ⟨a, u, rfl, hu⟩
      · intro h
        obtain ⟨x, y, rfl, hx⟩ := h
        rw [show globMatch ('*' :: ps) x = globStar (globMatch ps) x from by
              simp [globMatch]] at hx
        rw [globStar_iff] at hx
        obtain ⟨u, w, rfl, hw⟩ := hx
        exact ⟨u, w ++ y, by simp, (ih (w ++ y)).mpr ⟨w, y, rfl, hw⟩⟩
    · cases s with
      | nil =>
        simp only [List.cons_append]
        rw [show globMatch (c :: (ps ++ ['*'])) [] = false from by simp [globMatch, hc]]
        simp only [Bool.false_eq_true, false_iff]
        intro h
        obtain ⟨a, b, hab, ha⟩ := h
        obtain ⟨rfl, rfl⟩ := List.append_eq_nil.mp hab.symm
        simp [globMatch, hc] at ha
      | cons d s' =>
        simp only [List.cons_append]
        rw [show globMatch (c :: (ps ++ ['*'])) (d :: s') =
              ((c = '?' || c = d) && globMatch (ps ++ ['*']) s') from by
              simp [globMatch, hc]]
        rw [Bool.and_eq_true, ih s']
        constructor
        · intro h
          obtain ⟨hcd, a, b, rfl, ha⟩ := h
          refine ⟨d :: a, b, rfl, ?_⟩
          rw [show globMatch (c :: ps) (d :: a) =
                ((c = '?' || c = d) && globMatch ps a) from by simp [globMatch, hc]]
          rw [Bool.and_eq_true]
          exact ⟨hcd, ha⟩
        · intro h
          obtain ⟨a, b, hab, ha⟩ := h
          cases a with
          | nil => simp [globMatch, hc] at ha
          | cons a0 a' =>
            simp only [List.cons_append, List.cons.injEq] at hab
            obtain ⟨rfl, rfl⟩ := hab
            rw [show globMatch (c :: ps) (d :: a') =
                  ((c = '?' || c = d) && globMatch ps a') from by
                  simp [globMatch, hc]] at ha
            rw [Bool.and_eq_true] at ha
            exact ⟨ha.1, a', b, rfl, ha.2⟩

/-- C10: when wildcard symbol matching is requested and the query contains
`'*'` or `'?'` but does not already end in `'*'`, `execute` appends a
trailing `'*'` before any matching is performed; consequently the adjusted
query matches exactly the names having a prefix matched by the original
query — e.g. `"f?o"` matches every name beginning with an `"f?o"` match,
not only names of that exact length. -/
theorem wildcard_query_appends_star (wq s : List Char)
    (hwild : '*' ∈ wq ∨ '?' ∈ wq) (hend : wq.getLast? ≠ some '*') :
    adjustWildcardQuery true wq = wq ++ ['*'] ∧
    (globMatch (adjustWildcardQuery true wq) s = true ↔
      ∃ a b, s = a ++ b ∧ globMatch wq a = true) := by
  have hadj : adjustWildcardQuery true wq = wq ++ ['*'] := by
    simp only [adjustWildcardQuery, if_pos (And.intro trivial (And.intro hwild hend))]
  exact ⟨hadj, hadj ▸ globMatch_star_suffix wq s⟩

/-- C10 witness: `wildcard_query_appends_star` on the query `"f?o"` and the
name `"fooXYZ"`. -/
theorem wildcard_query_appends_star_witness :
    adjustWildcardQuery true ['f', '?', 'o'] = ['f', '?', 'o', '*'] ∧
    (globMatch (adjustWildcardQuery true ['f', '?', 'o']) "fooXYZ".toList = true ↔
      ∃ a b, "fooXYZ".toList = a ++ b ∧ globMatch ['f', '?', 'o'] a = true) :=
  wildcard_query_appends_star ['f', '?', 'o'] "fooXYZ".toList (Or.inr (by decide))
    (by decide)
